import Mathlib

/-!
Verification of the cosmiq5-web byte-stream recovery pipeline.

The development shallowly embeds the two Python source files:

* `src/cosmiq/cosmiq_dump_analyser.py` — `parse_dump`: frame
  demultiplexing (command code dispatch), hex materialization of the
  body channel (`binascii.unhexlify`), and padding-aware block
  segmentation in 6-byte windows against the all-0xFF filler.
* `src/cosmiq/cosmiq_log_parser.py` — `parse_logs`: the marker-driven
  sample-extraction scan over one recovered block.

Bytes are modelled as natural numbers (every byte produced by hex
decoding is < 256); text is modelled as `List Char`; fallible decoding
returns `Option`.  Python's `float` division by `100.0` is modelled as
exact division in `ℚ`.
-/

namespace Cosmiq

/-- Uppercase hex digit for a nibble, as produced by Python's
`bytes.hex().upper()`; values ≥ 16 never arise for real nibbles. -/
def hexUpperChar : Nat → Char
  | 0 => '0' | 1 => '1' | 2 => '2' | 3 => '3' | 4 => '4'
  | 5 => '5' | 6 => '6' | 7 => '7' | 8 => '8' | 9 => '9'
  | 10 => 'A' | 11 => 'B' | 12 => 'C' | 13 => 'D' | 14 => 'E' | 15 => 'F'
  | _ => '*'

/-- Lowercase hex digit for a nibble, as produced by Python's
`bytes.hex()`. -/
def hexLowerChar : Nat → Char
  | 0 => '0' | 1 => '1' | 2 => '2' | 3 => '3' | 4 => '4'
  | 5 => '5' | 6 => '6' | 7 => '7' | 8 => '8' | 9 => '9'
  | 10 => 'a' | 11 => 'b' | 12 => 'c' | 13 => 'd' | 14 => 'e' | 15 => 'f'
  | _ => '*'

/-- `bs.hex().upper()` for a byte sequence: two uppercase hex digits per
byte, in order. -/
def bytesHexUpper (bs : List Nat) : List Char :=
  bs.flatMap (fun b => [hexUpperChar (b / 16), hexUpperChar (b % 16)])

/-- `bs.hex()` for a byte sequence: two lowercase hex digits per byte. -/
def bytesHexLower (bs : List Nat) : List Char :=
  bs.flatMap (fun b => [hexLowerChar (b / 16), hexLowerChar (b % 16)])

/-- The filler test of `parse_dump`:
`chunk.hex().upper() == "FFFFFFFFFFFF"`. -/
def isFillerWindow (w : List Nat) : Bool :=
  decide (bytesHexUpper w = "FFFFFFFFFFFF".toList)

/-- Value of one hex digit, upper or lower case, as accepted by
`binascii.unhexlify`; `none` on a non-hex character. -/
def hexVal (c : Char) : Option Nat :=
  if '0' ≤ c ∧ c ≤ '9' then some (c.toNat - 48)
  else if 'a' ≤ c ∧ c ≤ 'f' then some (c.toNat - 87)
  else if 'A' ≤ c ∧ c ≤ 'F' then some (c.toNat - 55)
  else none

/-- `binascii.unhexlify`: two hex digits per byte; fails (`none`) on odd
length or on any non-hex character, producing no partial output. -/
def unhexlify : List Char → Option (List Nat)
  | [] => some []
  | [_] => none
  | c1 :: c2 :: rest =>
    match hexVal c1, hexVal c2, unhexlify rest with
    | some h, some l, some bs => some ((16 * h + l) :: bs)
    | _, _, _ => none

/-- Whitespace stripped by Python's `str.strip()` (ASCII subset). -/
def isPySpace (c : Char) : Bool :=
  c = ' ' || c = '\t' || c = '\n' || c = '\r' || c = '\x0b' || c = '\x0c'

/-- Python `line.strip()`. -/
def pyStrip (l : List Char) : List Char :=
  ((l.dropWhile isPySpace).reverse.dropWhile isPySpace).reverse

/-- The frame-demultiplexing loop of `parse_dump` (lines 18–32): strip
each line, drop it when shorter than 10 characters, else dispatch the
payload `line[6:]` on the command code `line[0:2]` to the header
(`"42"`) or body (`"44"`) accumulator. -/
def demuxGo : List Char → List Char → List (List Char) → List Char × List Char
  | hdr, body, [] => (hdr, body)
  | hdr, body, line :: rest =>
    let l := pyStrip line
    if l.length < 10 then demuxGo hdr body rest
    else if l.take 2 = "42".toList then demuxGo (hdr ++ l.drop 6) body rest
    else if l.take 2 = "44".toList then demuxGo hdr (body ++ l.drop 6) rest
    else demuxGo hdr body rest

/-- Frame demultiplexer: `(header_hex, body_hex)` accumulated over the
capture lines. -/
def demux (lines : List (List Char)) : List Char × List Char :=
  demuxGo [] [] lines

/-- The payloads of the frames routed to command code `cmd`, in frame
order (specification-side view of one channel): the stripped lines that
pass the minimum-length check and carry command code `cmd`, each
contributing its payload `line[6:]`. -/
def routedPayloads (cmd : List Char) : List (List Char) → List (List Char)
  | [] => []
  | line :: rest =>
    let l := pyStrip line
    if 10 ≤ l.length ∧ l.take 2 = cmd then l.drop 6 :: routedPayloads cmd rest
    else routedPayloads cmd rest

/-- `range(0, len(body_bytes), 6)` windowing of `parse_dump`: consecutive
non-overlapping 6-byte windows, the last possibly short. -/
def chunks : List Nat → List (List Nat)
  | [] => []
  | [a] => [[a]]
  | [a, b] => [[a, b]]
  | [a, b, c] => [[a, b, c]]
  | [a, b, c, d] => [[a, b, c, d]]
  | [a, b, c, d, e] => [[a, b, c, d, e]]
  | a :: b :: c :: d :: e :: f :: rest => [a, b, c, d, e, f] :: chunks rest

/-- The segmentation loop of `parse_dump` (lines 52–74): state is
`(in_data, current_chunk)`; a filler window closes and emits an open
block, a non-filler window opens/extends the block; at end of input a
non-empty `current_chunk` is flushed. -/
def segLoop : Bool → List Nat → List (List Nat) → List (List Nat)
  | _, current, [] => if current = [] then [] else [current]
  | inData, current, w :: ws =>
    if isFillerWindow w then
      if inData then current :: segLoop false [] ws
      else segLoop inData current ws
    else segLoop true (current ++ w) ws

/-- Block Segmenter: `unique_data_chunks` computed by `parse_dump` from a
raw byte sequence. -/
def segment (bs : List Nat) : List (List Nat) :=
  segLoop false [] (chunks bs)

/-- `parse_dump` end result: the reported header hex text, and (when the
body hex decodes) the list of segmented body blocks; `none` records the
hex-decode failure path that aborts before segmentation. -/
def parse_dump (lines : List (List Char)) : List Char × Option (List (List Nat)) :=
  match unhexlify (demux lines).2 with
  | none => ((demux lines).1, none)
  | some body_bytes => ((demux lines).1, some (segment body_bytes))

/-- Splitting a window list at its filler windows (separators dropped,
empty pieces kept), the standard split used to define maximal runs. -/
def splitAtFiller : List (List Nat) → List (List (List Nat))
  | [] => [[]]
  | w :: ws =>
    match splitAtFiller ws with
    | [] => [[w]]
    | r :: rs =>
      if isFillerWindow w then [] :: r :: rs else (w :: r) :: rs

/-- The maximal runs of consecutive non-filler windows: the non-empty
pieces obtained by splitting the window list at filler windows. -/
def nonFillerRuns (ws : List (List Nat)) : List (List (List Nat)) :=
  (splitAtFiller ws).filter (fun r => decide (r ≠ []))

/-- One decoded sample of `parse_logs`: byte offset in the block, the
marker as its lowercase hex text (`marker.hex()`), the little-endian
16-bit raw value, and the value scaled by 1/100. -/
structure Sample where
  offset : Nat
  marker : List Char
  raw_val : Nat
  depth_m : ℚ

/-- The marker test of `parse_logs`:
the two bytes at the scan position equal C2 00, C3 00 or C4 00. -/
def isSampleMarker (a b : Nat) : Bool :=
  decide ([a, b] = ([0xC2, 0x00] : List Nat) ∨
    [a, b] = ([0xC3, 0x00] : List Nat) ∨ [a, b] = ([0xC4, 0x00] : List Nat))

/-- The sample-extraction loop of `parse_logs` (lines 36–61), phrased on
the suffix `data[i:]` of the block: the guard `i < len(data) - 4` holds
exactly when the suffix has at least 5 bytes; a marker match reads the
next two bytes as `struct.unpack("<H", ...)`, emits a sample, and
advances by 4 (`data.drop 4` of the suffix), otherwise the scan advances
by 1. -/
def sampleScan : Nat → List Nat → List Sample
  | i, a :: b :: c :: d :: e :: rest =>
    if isSampleMarker a b then
      ⟨i, bytesHexLower [a, b], c + 256 * d, ((c + 256 * d : Nat) : ℚ) / 100⟩ ::
        sampleScan (i + 4) (e :: rest)
    else sampleScan (i + 1) (b :: c :: d :: e :: rest)
  | _, _ => []

/-- Sample Extractor applied to one block, from offset 0. -/
def parse_logs_samples (data : List Nat) : List Sample :=
  sampleScan 0 data


theorem hexUpperChar_eq_F (n : Nat) : hexUpperChar n = 'F' ↔ n = 15 := by
  rcases Nat.lt_or_ge n 16 with h | h
  · interval_cases n <;> decide
  · obtain ⟨m, rfl⟩ := Nat.exists_eq_add_of_le' h
    rw [show hexUpperChar (m + 16) = '*' from rfl]
    exact ⟨fun hc => absurd hc (by decide), fun hc => absurd hc (by omega)⟩

theorem bytesHexUpper_cons (b : Nat) (t : List Nat) :
    bytesHexUpper (b :: t) =
      hexUpperChar (b / 16) :: hexUpperChar (b % 16) :: bytesHexUpper t := rfl

theorem bytesHexUpper_eq_nil {t : List Nat} : bytesHexUpper t = [] ↔ t = [] := by
  cases t <;> simp [bytesHexUpper_cons, bytesHexUpper]

theorem byte_eq_255 {a : Nat} (h1 : hexUpperChar (a / 16) = 'F')
    (h2 : hexUpperChar (a % 16) = 'F') : a = 255 := by
  rw [hexUpperChar_eq_F] at h1 h2; omega

theorem isFillerWindow_iff {w : List Nat} :
    isFillerWindow w = true ↔ w = [255, 255, 255, 255, 255, 255] := by
  constructor
  · intro h
    have h' : bytesHexUpper w = "FFFFFFFFFFFF".toList := of_decide_eq_true h
    rw [show ("FFFFFFFFFFFF".toList) =
      ['F','F','F','F','F','F','F','F','F','F','F','F'] from rfl] at h'
    rcases w with _ | ⟨a, w⟩
    · simp [bytesHexUpper] at h'
    rcases w with _ | ⟨b, w⟩
    · simp [bytesHexUpper_cons, bytesHexUpper] at h'
    rcases w with _ | ⟨c, w⟩
    · simp [bytesHexUpper_cons, bytesHexUpper] at h'
    rcases w with _ | ⟨d, w⟩
    · simp [bytesHexUpper_cons, bytesHexUpper] at h'
    rcases w with _ | ⟨e, w⟩
    · simp [bytesHexUpper_cons, bytesHexUpper] at h'
    rcases w with _ | ⟨f, rest⟩
    · simp [bytesHexUpper_cons, bytesHexUpper] at h'
    simp only [bytesHexUpper_cons, List.cons.injEq] at h'
    obtain ⟨ha1, ha2, hb1, hb2, hc1, hc2, hd1, hd2, he1, he2, hf1, hf2, hrest⟩ := h'
    have hr : rest = [] := bytesHexUpper_eq_nil.mp hrest
    subst hr
    rw [byte_eq_255 ha1 ha2, byte_eq_255 hb1 hb2, byte_eq_255 hc1 hc2,
      byte_eq_255 hd1 hd2, byte_eq_255 he1 he2, byte_eq_255 hf1 hf2]
  · intro h; subst h; decide


theorem chunks_flatten (bs : List Nat) : (chunks bs).flatten = bs := by
  induction bs using chunks.induct <;> simp [chunks, *]

theorem chunks_ne_nil {bs : List Nat} (h : bs ≠ []) : chunks bs ≠ [] := by
  rcases bs with _ | ⟨a, _ | ⟨b, _ | ⟨c, _ | ⟨d, _ | ⟨e, _ | ⟨f, rest⟩⟩⟩⟩⟩⟩
  · exact absurd rfl h
  all_goals simp [chunks]

theorem mem_chunks_ne_nil {bs : List Nat} {w : List Nat} (hw : w ∈ chunks bs) :
    w ≠ [] := by
  induction bs using chunks.induct with
  | case7 a b c d e f rest ih =>
    rcases (by simpa [chunks] using hw : w = [a, b, c, d, e, f] ∨ w ∈ chunks rest) with h | h
    · subst h; simp
    · exact ih h
  | _ => simp [chunks] at hw <;> simp [hw]

theorem mem_chunks_length {bs : List Nat} {w : List Nat} (hw : w ∈ chunks bs) :
    0 < w.length ∧ w.length ≤ 6 := by
  induction bs using chunks.induct with
  | case7 a b c d e f rest ih =>
    rcases (by simpa [chunks] using hw : w = [a, b, c, d, e, f] ∨ w ∈ chunks rest) with h | h
    · subst h; simp
    · exact ih h
  | _ => simp [chunks] at hw <;> simp [hw]

theorem mem_chunks_dropLast_length {bs : List Nat} {w : List Nat}
    (hw : w ∈ (chunks bs).dropLast) : w.length = 6 := by
  induction bs using chunks.induct with
  | case7 a b c d e f rest ih =>
    rcases eq_or_ne rest [] with hr | hr
    · subst hr; simp [chunks] at hw
    · rw [show chunks (a :: b :: c :: d :: e :: f :: rest) =
          [a, b, c, d, e, f] :: chunks rest from rfl] at hw
      have hcr := chunks_ne_nil hr
      rcases hc : chunks rest with _ | ⟨u, us⟩
      · exact absurd hc hcr
      · rw [hc, List.dropLast_cons₂, ← hc] at hw
        rcases List.mem_cons.mp hw with h | h
        · subst h; simp
        · exact ih h
  | _ => simp [chunks] at hw

theorem chunks_append_six {w : List Nat} (h : w.length = 6) (t : List Nat) :
    chunks (w ++ t) = w :: chunks t := by
  rcases w with _ | ⟨a, _ | ⟨b, _ | ⟨c, _ | ⟨d, _ | ⟨e, _ | ⟨f, rest⟩⟩⟩⟩⟩⟩ <;>
    simp at h
  have hr : rest = [] := by simpa using h
  subst hr
  rfl

theorem chunks_small {l : List Nat} (h0 : l ≠ []) (h6 : l.length ≤ 6) :
    chunks l = [l] := by
  rcases l with _ | ⟨a, _ | ⟨b, _ | ⟨c, _ | ⟨d, _ | ⟨e, _ | ⟨f, rest⟩⟩⟩⟩⟩⟩
  · exact absurd rfl h0
  · rfl
  · rfl
  · rfl
  · rfl
  · rfl
  · simp at h6
    subst h6
    rfl

theorem chunks_flatten_of_regular :
    ∀ ws : List (List Nat), ws ≠ [] →
      (∀ w ∈ ws.dropLast, w.length = 6) →
      (∀ w ∈ ws, 0 < w.length ∧ w.length ≤ 6) →
      chunks ws.flatten = ws
  | [], h0, _, _ => absurd rfl h0
  | [w], _, _, hall => by
    have h := hall w (by simp)
    simp [chunks_small (List.length_pos.mp h.1) h.2]
  | w :: w' :: t, _, hdrop, hall => by
    have hw6 : w.length = 6 := hdrop w (by rw [List.dropLast_cons₂]; simp)
    have ih := chunks_flatten_of_regular (w' :: t) (by simp)
      (fun u hu => hdrop u (by rw [List.dropLast_cons₂]; exact List.mem_cons_of_mem _ hu))
      (fun u hu => hall u (List.mem_cons_of_mem _ hu))
    rw [show (w :: w' :: t).flatten = w ++ (w' :: t).flatten from rfl,
      chunks_append_six hw6, ih]


theorem splitAtFiller_ne_nil (ws : List (List Nat)) : splitAtFiller ws ≠ [] := by
  induction ws using splitAtFiller.induct <;> simp_all [splitAtFiller]

theorem splitAtFiller_cons_filler {w : List Nat} (ws : List (List Nat))
    (hw : isFillerWindow w = true) :
    splitAtFiller (w :: ws) = [] :: splitAtFiller ws := by
  rcases h : splitAtFiller ws with _ | ⟨r, rs⟩
  · exact absurd h (splitAtFiller_ne_nil ws)
  · simp [splitAtFiller, h, hw]

theorem splitAtFiller_cons_nonfiller {w : List Nat} {ws : List (List Nat)}
    {r : List (List Nat)} {rs : List (List (List Nat))}
    (h : splitAtFiller ws = r :: rs) (hw : isFillerWindow w = false) :
    splitAtFiller (w :: ws) = (w :: r) :: rs := by
  simp [splitAtFiller, h, hw]

theorem splitAtFiller_mem_mem (ws : List (List Nat)) :
    ∀ r ∈ splitAtFiller ws, ∀ w ∈ r, w ∈ ws := by
  induction ws using splitAtFiller.induct with
  | case1 =>
    intro r hr
    simp [splitAtFiller] at hr
    simp [hr]
  | case2 w ws hsp ih => exact absurd hsp (splitAtFiller_ne_nil ws)
  | case3 w ws r' rs' hsp hw ih =>
    intro r hr
    rw [splitAtFiller_cons_filler ws hw] at hr
    rcases List.mem_cons.mp hr with h | h
    · simp [h]
    · exact fun u hu => List.mem_cons_of_mem _ (ih r h u hu)
  | case4 w ws r' rs' hsp hw ih =>
    intro r hr
    rw [splitAtFiller_cons_nonfiller hsp (Bool.not_eq_true _ |>.mp hw)] at hr
    rcases List.mem_cons.mp hr with h | h
    · subst h
      intro u hu
      rcases List.mem_cons.mp hu with h' | h'
      · simp [h']
      · exact List.mem_cons_of_mem _
          (ih r' (by rw [hsp]; exact List.mem_cons_self _ _) u h')
    · exact fun u hu => List.mem_cons_of_mem _
        (ih r (by rw [hsp]; exact List.mem_cons_of_mem _ h) u hu)

theorem splitAtFiller_nonfiller (ws : List (List Nat)) :
    ∀ r ∈ splitAtFiller ws, ∀ w ∈ r, isFillerWindow w = false := by
  induction ws using splitAtFiller.induct with
  | case1 =>
    intro r hr
    simp [splitAtFiller] at hr
    simp [hr]
  | case2 w ws hsp ih => exact absurd hsp (splitAtFiller_ne_nil ws)
  | case3 w ws r' rs' hsp hw ih =>
    intro r hr
    rw [splitAtFiller_cons_filler ws hw] at hr
    rcases List.mem_cons.mp hr with h | h
    · simp [h]
    · exact ih r h
  | case4 w ws r' rs' hsp hw ih =>
    intro r hr
    have hw' : isFillerWindow w = false := Bool.not_eq_true _ |>.mp hw
    rw [splitAtFiller_cons_nonfiller hsp hw'] at hr
    rcases List.mem_cons.mp hr with h | h
    · subst h
      intro u hu
      rcases List.mem_cons.mp hu with h' | h'
      · rw [h']; exact hw'
      · exact ih r' (by rw [hsp]; exact List.mem_cons_self _ _) u h'
    · exact ih r (by rw [hsp]; exact List.mem_cons_of_mem _ h)

theorem splitAtFiller_head_prefix (ws : List (List Nat)) :
    ∃ t, ws = ((splitAtFiller ws).headD []) ++ t := by
  induction ws using splitAtFiller.induct with
  | case1 => exact ⟨[], rfl⟩
  | case2 w ws hsp ih => exact absurd hsp (splitAtFiller_ne_nil ws)
  | case3 w ws r' rs' hsp hw ih =>
    rw [splitAtFiller_cons_filler ws hw]
    exact ⟨w :: ws, rfl⟩
  | case4 w ws r' rs' hsp hw ih =>
    rw [splitAtFiller_cons_nonfiller hsp (Bool.not_eq_true _ |>.mp hw)]
    obtain ⟨t, ht⟩ := ih
    rw [hsp] at ht
    exact ⟨t, by simpa using congrArg (List.cons w) ht⟩

theorem splitAtFiller_infix (ws : List (List Nat)) :
    ∀ r ∈ splitAtFiller ws, ∃ s t, ws = s ++ r ++ t := by
  induction ws using splitAtFiller.induct with
  | case1 =>
    intro r hr
    simp [splitAtFiller] at hr
    exact ⟨[], [], by simp [hr]⟩
  | case2 w ws hsp ih => exact absurd hsp (splitAtFiller_ne_nil ws)
  | case3 w ws r' rs' hsp hw ih =>
    intro r hr
    rw [splitAtFiller_cons_filler ws hw] at hr
    rcases List.mem_cons.mp hr with h | h
    · exact ⟨[], w :: ws, by simp [h]⟩
    · obtain ⟨s, t, hst⟩ := ih r h
      exact ⟨w :: s, t, by simp [hst]⟩
  | case4 w ws r' rs' hsp hw ih =>
    intro r hr
    rw [splitAtFiller_cons_nonfiller hsp (Bool.not_eq_true _ |>.mp hw)] at hr
    rcases List.mem_cons.mp hr with h | h
    · subst h
      obtain ⟨t, ht⟩ := splitAtFiller_head_prefix ws
      rw [hsp] at ht
      exact ⟨[], t, by simpa using congrArg (List.cons w) ht⟩
    · obtain ⟨s, t, hst⟩ := ih r (by rw [hsp]; exact List.mem_cons_of_mem _ h)
      exact ⟨w :: s, t, by simp [hst]⟩


theorem segLoop_eq (ws : List (List Nat)) (hne : ∀ w ∈ ws, w ≠ []) :
    (segLoop false [] ws = (nonFillerRuns ws).map List.flatten) ∧
    (∀ cur : List Nat, cur ≠ [] → ∀ r rs, splitAtFiller ws = r :: rs →
      segLoop true cur ws =
        (cur ++ r.flatten) ::
          ((rs.filter (fun x => decide (x ≠ []))).map List.flatten)) := by
  induction ws with
  | nil =>
    constructor
    · simp [segLoop, nonFillerRuns, splitAtFiller]
    · intro cur hcur r rs hsp
      simp [splitAtFiller] at hsp
      obtain ⟨hr, hrs⟩ := hsp
      subst hr; subst hrs
      simp [segLoop, hcur]
  | cons w ws ih =>
    have hne' : ∀ u ∈ ws, u ≠ [] := fun u hu => hne u (List.mem_cons_of_mem _ hu)
    obtain ⟨ih1, ih2⟩ := ih hne'
    rcases hsp : splitAtFiller ws with _ | ⟨r', rs'⟩
    · exact absurd hsp (splitAtFiller_ne_nil ws)
    cases hf : isFillerWindow w with
    | true =>
      constructor
      · rw [show segLoop false [] (w :: ws) = segLoop false [] ws by
          simp [segLoop, hf]]
        rw [ih1]
        simp [nonFillerRuns, splitAtFiller_cons_filler ws hf]
      · intro cur hcur r rs hr
        rw [splitAtFiller_cons_filler ws hf] at hr
        obtain ⟨hr1, hr2⟩ := List.cons.inj hr
        subst hr1; subst hr2
        rw [show segLoop true cur (w :: ws) = cur :: segLoop false [] ws by
          simp [segLoop, hf]]
        rw [ih1]
        simp [nonFillerRuns, hsp]
    | false =>
      have hw : w ≠ [] := hne w (List.mem_cons_self _ _)
      constructor
      · rw [show segLoop false [] (w :: ws) = segLoop true w ws by
          simp [segLoop, hf]]
        rw [ih2 w hw r' rs' hsp]
        simp [nonFillerRuns, splitAtFiller_cons_nonfiller hsp hf, hw]
      · intro cur hcur r rs hr
        rw [splitAtFiller_cons_nonfiller hsp hf] at hr
        obtain ⟨hr1, hr2⟩ := List.cons.inj hr
        subst hr2
        rw [show segLoop true cur (w :: ws) = segLoop true (cur ++ w) ws by
          simp [segLoop, hf]]
        rw [ih2 (cur ++ w) (by simp [hcur]) r' rs' hsp]
        rw [← hr1]
        simp

theorem segLoop_true_no_filler (ws : List (List Nat))
    (hnf : ∀ w ∈ ws, isFillerWindow w = false) :
    ∀ cur : List Nat, cur ≠ [] → segLoop true cur ws = [cur ++ ws.flatten] := by
  induction ws with
  | nil => intro cur hcur; simp [segLoop, hcur]
  | cons w ws ih =>
    intro cur hcur
    rw [show segLoop true cur (w :: ws) = segLoop true (cur ++ w) ws by
      simp [segLoop, hnf w (List.mem_cons_self _ _)]]
    rw [ih (fun u hu => hnf u (List.mem_cons_of_mem _ hu)) (cur ++ w) (by simp [hcur])]
    simp

theorem segment_eq_runs (bs : List Nat) :
    segment bs = (nonFillerRuns (chunks bs)).map List.flatten :=
  (segLoop_eq (chunks bs) (fun _ hw => mem_chunks_ne_nil hw)).1


theorem demuxGo_eq (lines : List (List Char)) :
    ∀ hdr body : List Char,
      demuxGo hdr body lines =
        (hdr ++ (routedPayloads "42".toList lines).flatten,
         body ++ (routedPayloads "44".toList lines).flatten) := by
  induction lines with
  | nil => intro hdr body; simp [demuxGo, routedPayloads]
  | cons line rest ih =>
    intro hdr body
    by_cases h1 : (pyStrip line).length < 10
    · have h1' : ¬ (10 ≤ (pyStrip line).length) := by omega
      simp [demuxGo, routedPayloads, h1, h1', ih]
    · have h1' : 10 ≤ (pyStrip line).length := by omega
      by_cases h2 : (pyStrip line).take 2 = ['4', '2']
      · have h3 : ¬ ((pyStrip line).take 2 = ['4', '4']) := by
          rw [h2]; decide
        simp [demuxGo, routedPayloads, h1, h1', h2, h3, ih]
      · by_cases h3 : (pyStrip line).take 2 = ['4', '4']
        · simp [demuxGo, routedPayloads, h1, h1', h2, h3, ih]
        · simp [demuxGo, routedPayloads, h1, h1', h2, h3, ih]

theorem demux_eq (lines : List (List Char)) :
    demux lines =
      ((routedPayloads "42".toList lines).flatten,
       (routedPayloads "44".toList lines).flatten) := by
  rw [demux, demuxGo_eq]
  simp

theorem unhexlify_some_length {l : List Char} {bs : List Nat}
    (h : unhexlify l = some bs) : l.length = 2 * bs.length := by
  induction l using unhexlify.induct generalizing bs with
  | case1 => simp [unhexlify] at h; subst h; simp
  | case2 c => simp [unhexlify] at h
  | case3 c1 c2 rest h' l' bs' hrest hc2 hc1 ih =>
    rw [unhexlify, hc1, hc2, hrest] at h
    simp at h
    subst h
    simp [ih hrest]
    omega
  | case4 c1 c2 rest hno ih =>
    rw [unhexlify] at h
    rcases hc1 : hexVal c1 with _ | v1 <;> rcases hc2 : hexVal c2 with _ | v2 <;>
      rcases hrest : unhexlify rest with _ | bs' <;>
        simp [hc1, hc2, hrest] at h
    exact (hno v1 v2 bs' hc1 hc2 hrest).elim

theorem unhexlify_eq_none_iff (l : List Char) :
    unhexlify l = none ↔ (l.length % 2 = 1 ∨ ∃ c ∈ l, hexVal c = none) := by
  induction l using unhexlify.induct with
  | case1 => simp [unhexlify]
  | case2 c => simp [unhexlify]
  | case3 c1 c2 rest h' l' bs' hrest hc2 hc1 ih =>
    rw [unhexlify, hc1, hc2, hrest]
    have hrestiff : ¬(rest.length % 2 = 1 ∨ ∃ c ∈ rest, hexVal c = none) := by
      rw [← ih]; simp [hrest]
    constructor
    · intro h; exact absurd h (by simp)
    · intro h
      exfalso
      rcases h with hodd | ⟨c, hc, hcn⟩
      · exact hrestiff (Or.inl (by simp at hodd; omega))
      · rcases List.mem_cons.mp hc with rfl | hc'
        · rw [hc1] at hcn; exact absurd hcn (by simp)
        · rcases List.mem_cons.mp hc' with rfl | hc''
          · rw [hc2] at hcn; exact absurd hcn (by simp)
          · exact hrestiff (Or.inr ⟨c, hc'', hcn⟩)
  | case4 c1 c2 rest hno ih =>
    have hnone : unhexlify (c1 :: c2 :: rest) = none := by
      rw [unhexlify]
      rcases hc1 : hexVal c1 with _ | v1 <;> rcases hc2 : hexVal c2 with _ | v2 <;>
        rcases hrest : unhexlify rest with _ | bs' <;> simp
      exact (hno v1 v2 bs' hc1 hc2 hrest).elim
    rw [hnone]
    simp only [true_iff]
    rcases hc1 : hexVal c1 with _ | v1
    · exact Or.inr ⟨c1, List.mem_cons_self _ _, hc1⟩
    rcases hc2 : hexVal c2 with _ | v2
    · exact Or.inr ⟨c2, List.mem_cons_of_mem _ (List.mem_cons_self _ _), hc2⟩
    rcases hrest : unhexlify rest with _ | bs'
    · rcases ih.mp hrest with hodd | ⟨c, hc, hcn⟩
      · exact Or.inl (by simp; omega)
      · exact Or.inr ⟨c, List.mem_cons_of_mem _ (List.mem_cons_of_mem _ hc), hcn⟩
    · exact (hno v1 v2 bs' hc1 hc2 hrest).elim

theorem unhexlify_append {p q : List Char} {x y : List Nat}
    (hp : unhexlify p = some x) (hq : unhexlify q = some y) :
    unhexlify (p ++ q) = some (x ++ y) := by
  induction p using unhexlify.induct generalizing x with
  | case1 => simp [unhexlify] at hp; subst hp; simpa using hq
  | case2 c => simp [unhexlify] at hp
  | case3 c1 c2 rest h' l' bs' hrest hc2 hc1 ih =>
    rw [unhexlify, hc1, hc2, hrest] at hp
    simp at hp
    subst hp
    rw [List.cons_append, List.cons_append, unhexlify, hc1, hc2, ih hrest]
    simp
  | case4 c1 c2 rest hno ih =>
    rw [unhexlify] at hp
    rcases hc1 : hexVal c1 with _ | v1 <;> rcases hc2 : hexVal c2 with _ | v2 <;>
      rcases hrest : unhexlify rest with _ | bs' <;>
        simp [hc1, hc2, hrest] at hp
    exact (hno v1 v2 bs' hc1 hc2 hrest).elim

theorem unhexlify_flatten {ps : List (List Char)} {qs : List (List Nat)}
    (h : List.Forall₂ (fun p q => unhexlify p = some q) ps qs) :
    unhexlify ps.flatten = some qs.flatten := by
  induction h with
  | nil => rfl
  | cons hpq hps ih => simpa using unhexlify_append hpq ih


/-- Agreement of two capture lines on everything except the checksum and
length fields: equal stripped lengths, equal command code characters
`[0,2)`, and equal payload characters `[6..)`. -/
def linesAgree (a b : List Char) : Prop :=
  (pyStrip a).length = (pyStrip b).length ∧
  (pyStrip a).take 2 = (pyStrip b).take 2 ∧
  (pyStrip a).drop 6 = (pyStrip b).drop 6

theorem demuxGo_congr {L1 L2 : List (List Char)}
    (h : List.Forall₂ linesAgree L1 L2) :
    ∀ hdr body : List Char, demuxGo hdr body L1 = demuxGo hdr body L2 := by
  induction h with
  | nil => intro hdr body; rfl
  | @cons a b L1 L2 hab hrest ih =>
    intro hdr body
    obtain ⟨hlen, htake, hdrop⟩ := hab
    by_cases h1 : (pyStrip a).length < 10
    · have h1b : (pyStrip b).length < 10 := hlen ▸ h1
      simp only [demuxGo]
      rw [if_pos h1, if_pos h1b]
      exact ih hdr body
    · have h1b : ¬((pyStrip b).length < 10) := hlen ▸ h1
      by_cases h2 : (pyStrip a).take 2 = "42".toList
      · have h2b : (pyStrip b).take 2 = "42".toList := htake ▸ h2
        simp only [demuxGo]
        rw [if_neg h1, if_neg h1b, if_pos h2, if_pos h2b, hdrop]
        exact ih _ body
      · have h2b : ¬((pyStrip b).take 2 = "42".toList) := htake ▸ h2
        by_cases h3 : (pyStrip a).take 2 = "44".toList
        · have h3b : (pyStrip b).take 2 = "44".toList := htake ▸ h3
          simp only [demuxGo]
          rw [if_neg h1, if_neg h1b, if_neg h2, if_neg h2b, if_pos h3, if_pos h3b, hdrop]
          exact ih hdr _
        · have h3b : ¬((pyStrip b).take 2 = "44".toList) := htake ▸ h3
          simp only [demuxGo]
          rw [if_neg h1, if_neg h1b, if_neg h2, if_neg h2b, if_neg h3, if_neg h3b]
          exact ih hdr body


/-- C1: End-to-end pipeline on the three-line capture: the header channel
accumulates hex text CAFEBABE; the body channel decodes to the 18 bytes
FF FF FF FF FF FF C2 00 12 34 00 00 FF FF FF FF FF FF; segmentation of
those bytes yields exactly one block C2 00 12 34 00 00; and sample
extraction on that block yields exactly one sample with offset 0, marker
c200, raw value 13330 and scaled value 133.30. -/
theorem C1_end_to_end_pipeline :
    demux ["42AAAACAFEBABE".toList, "44BBBBFFFFFFFFFFFF".toList,
        "44CCCCC20012340000FFFFFFFFFFFF".toList] =
      ("CAFEBABE".toList, "FFFFFFFFFFFFC20012340000FFFFFFFFFFFF".toList)
    ∧ unhexlify "FFFFFFFFFFFFC20012340000FFFFFFFFFFFF".toList =
        some [255, 255, 255, 255, 255, 255, 0xC2, 0x00, 0x12, 0x34, 0x00, 0x00,
          255, 255, 255, 255, 255, 255]
    ∧ segment [255, 255, 255, 255, 255, 255, 0xC2, 0x00, 0x12, 0x34, 0x00, 0x00,
          255, 255, 255, 255, 255, 255] =
        [[0xC2, 0x00, 0x12, 0x34, 0x00, 0x00]]
    ∧ parse_logs_samples [0xC2, 0x00, 0x12, 0x34, 0x00, 0x00] =
        [⟨0, "c200".toList, 13330, 133.30⟩] := by
  refine ⟨by decide, by decide, by decide, ?_⟩
  rw [parse_logs_samples]
  rw [show sampleScan 0 [0xC2, 0x00, 0x12, 0x34, 0x00, 0x00] =
      ⟨0, bytesHexLower [0xC2, 0x00], 0x12 + 256 * 0x34,
        ((0x12 + 256 * 0x34 : Nat) : ℚ) / 100⟩ :: sampleScan 4 [0x00, 0x00] from by
    simp [sampleScan, isSampleMarker]]
  rw [show sampleScan 4 [0x00, 0x00] = [] from rfl]
  refine List.cons_eq_cons.mpr ⟨?_, rfl⟩
  refine congrArg₂ (fun m q => Sample.mk 0 m 13330 q) (by decide) ?_
  norm_num


/-- C2: Segmenter invariant: the emitted blocks are exactly the maximal
runs of consecutive non-filler windows of the window partition,
flattened in order; every block is non-empty; no window of any run
matches the filler pattern; and the block count equals the run count. -/
theorem C2_segmenter_invariant (bs : List Nat) :
    segment bs = (nonFillerRuns (chunks bs)).map List.flatten
    ∧ (∀ b ∈ segment bs, b ≠ [])
    ∧ (∀ r ∈ nonFillerRuns (chunks bs), r ≠ [] ∧ ∀ w ∈ r, isFillerWindow w = false)
    ∧ (segment bs).length = (nonFillerRuns (chunks bs)).length := by
  have hcorr := segment_eq_runs bs
  refine ⟨hcorr, ?_, ?_, ?_⟩
  · intro b hb
    rw [hcorr] at hb
    obtain ⟨r, hr, rfl⟩ := List.mem_map.mp hb
    have hmf := List.mem_filter.mp hr
    have hrne : r ≠ [] := of_decide_eq_true hmf.2
    rcases r with _ | ⟨w0, r0⟩
    · exact absurd rfl hrne
    have hw0 : w0 ∈ chunks bs :=
      splitAtFiller_mem_mem _ _ hmf.1 w0 (List.mem_cons_self _ _)
    have hw0ne : w0 ≠ [] := mem_chunks_ne_nil hw0
    simp only [List.flatten_cons, ne_eq, List.append_eq_nil]
    exact fun h => hw0ne h.1
  · intro r hr
    have hmf := List.mem_filter.mp hr
    exact ⟨of_decide_eq_true hmf.2, splitAtFiller_nonfiller _ _ hmf.1⟩
  · rw [hcorr, List.length_map]

theorem C2_segmenter_invariant_witness :
    ([7, 7, 7] : List Nat) ∈ segment [7, 7, 7] ∧ ([7, 7, 7] : List Nat) ≠ [] :=
  ⟨by decide, (C2_segmenter_invariant [7, 7, 7]).2.1 [7, 7, 7] (by decide)⟩

/-- C3: Segmentation is idempotent on its own output: every block emitted
by the segmenter, segmented again, yields exactly that one block back
unchanged. -/
theorem C3_segment_idempotent (bs b : List Nat) (hb : b ∈ segment bs) :
    segment b = [b] := by
  rw [segment_eq_runs bs] at hb
  obtain ⟨r, hr, rfl⟩ := List.mem_map.mp hb
  have hmf := List.mem_filter.mp hr
  have hrs : r ∈ splitAtFiller (chunks bs) := hmf.1
  have hrne : r ≠ [] := of_decide_eq_true hmf.2
  have hsub : ∀ w ∈ r, w ∈ chunks bs := splitAtFiller_mem_mem _ _ hrs
  have hnf : ∀ w ∈ r, isFillerWindow w = false := splitAtFiller_nonfiller _ _ hrs
  obtain ⟨s, t, hst⟩ := splitAtFiller_infix _ _ hrs
  have hdrop : ∀ w ∈ r.dropLast, w.length = 6 := by
    intro w hw
    refine @mem_chunks_dropLast_length bs w ?_
    rw [hst]
    rcases eq_or_ne t [] with rfl | ht
    · rw [List.append_nil, List.dropLast_append_of_ne_nil _ hrne]
      exact List.mem_append_right _ hw
    · rw [List.dropLast_append_of_ne_nil _ ht]
      exact List.mem_append_left _
        (List.mem_append_right _ (List.dropLast_subset _ hw))
  have hlen : ∀ w ∈ r, 0 < w.length ∧ w.length ≤ 6 :=
    fun w hw => mem_chunks_length (hsub w hw)
  have hchunks : chunks r.flatten = r := chunks_flatten_of_regular r hrne hdrop hlen
  rw [segment, hchunks]
  rcases r with _ | ⟨w0, r0⟩
  · exact absurd rfl hrne
  have hw0ne : w0 ≠ [] := mem_chunks_ne_nil (hsub w0 (List.mem_cons_self _ _))
  rw [show segLoop false [] (w0 :: r0) = segLoop true w0 r0 by
    simp [segLoop, hnf w0 (List.mem_cons_self _ _)]]
  rw [segLoop_true_no_filler r0 (fun u hu => hnf u (List.mem_cons_of_mem _ hu)) w0 hw0ne]
  simp

theorem C3_segment_idempotent_witness : segment [5, 6] = [[5, 6]] :=
  C3_segment_idempotent [5, 6] [5, 6] (by decide)

/-- C5 counterexample: on the empty input sequence (which vacuously
contains no filler windows) the segmenter yields zero blocks, not the
claimed single block equal to the whole input. -/
theorem C5_counterexample :
    segment ([] : List Nat) = [] ∧ segment ([] : List Nat) ≠ [[]] := by decide

/-- C5 amended: for every NON-EMPTY byte sequence none of whose windows
matches the filler pattern, the segmenter yields exactly one block equal
to the whole input; the empty input instead yields zero blocks. -/
theorem C5_amended_no_filler_single_block (bs : List Nat) (h0 : bs ≠ [])
    (hnf : ∀ w ∈ chunks bs, isFillerWindow w = false) : segment bs = [bs] := by
  rcases hc : chunks bs with _ | ⟨w, ws⟩
  · exact absurd hc (chunks_ne_nil h0)
  have hwmem : w ∈ chunks bs := by rw [hc]; exact List.mem_cons_self _ _
  have hwne : w ≠ [] := mem_chunks_ne_nil hwmem
  have hfl : w ++ ws.flatten = bs := by
    have h := chunks_flatten bs
    rw [hc] at h
    simpa using h
  rw [segment, hc]
  rw [show segLoop false [] (w :: ws) = segLoop true w ws by
    simp [segLoop, hnf w hwmem]]
  rw [segLoop_true_no_filler ws
    (fun u hu => hnf u (by rw [hc]; exact List.mem_cons_of_mem _ hu)) w hwne]
  rw [hfl]

theorem C5_amended_witness : segment [1, 2, 3] = [[1, 2, 3]] :=
  C5_amended_no_filler_single_block [1, 2, 3] (by decide) (by decide)


/-- C4 counterexample: one frame routed to the body channel with payload
hex 1234 (4 hex characters) decodes to 2 bytes, not to the claimed
twice-the-character-count (8). -/
theorem C4_counterexample :
    (demux ["44AAAA1234".toList]).2.length = 4
    ∧ unhexlify (demux ["44AAAA1234".toList]).2 = some [0x12, 0x34]
    ∧ ¬((2 : Nat) = 2 * 4) := by decide

/-- C4 amended: each channel accumulator is the concatenation of the
payloads routed to it in frame order; when a channel decodes, the number
of decoded bytes is HALF the number of accumulated hex characters
(2·bytes = characters); and when every routed payload decodes
individually, decoding the concatenated channel text reconstructs
exactly the concatenation of the per-frame payload byte sequences in
frame order. -/
theorem C4_amended_channel_bytes (lines : List (List Char)) :
    (demux lines).1 = (routedPayloads "42".toList lines).flatten
    ∧ (demux lines).2 = (routedPayloads "44".toList lines).flatten
    ∧ (∀ bs : List Nat, unhexlify (demux lines).1 = some bs →
        (demux lines).1.length = 2 * bs.length)
    ∧ (∀ bs : List Nat, unhexlify (demux lines).2 = some bs →
        (demux lines).2.length = 2 * bs.length)
    ∧ (∀ qs : List (List Nat),
        List.Forall₂ (fun p q => unhexlify p = some q)
          (routedPayloads "42".toList lines) qs →
        unhexlify (demux lines).1 = some qs.flatten)
    ∧ (∀ qs : List (List Nat),
        List.Forall₂ (fun p q => unhexlify p = some q)
          (routedPayloads "44".toList lines) qs →
        unhexlify (demux lines).2 = some qs.flatten) := by
  have hd := demux_eq lines
  refine ⟨by rw [hd], by rw [hd], ?_, ?_, ?_, ?_⟩
  · exact fun bs h => unhexlify_some_length h
  · exact fun bs h => unhexlify_some_length h
  · intro qs h
    rw [hd]
    exact unhexlify_flatten h
  · intro qs h
    rw [hd]
    exact unhexlify_flatten h

theorem C4_amended_witness :
    (demux ["44AAAA1234".toList]).2.length = 2 * ([0x12, 0x34] : List Nat).length
    ∧ unhexlify (demux ["44AAAA1234".toList]).2 =
        some ([[0x12, 0x34]] : List (List Nat)).flatten :=
  ⟨(C4_amended_channel_bytes ["44AAAA1234".toList]).2.2.2.1 [0x12, 0x34] (by decide),
   (C4_amended_channel_bytes ["44AAAA1234".toList]).2.2.2.2.2 [[0x12, 0x34]]
     (List.Forall₂.cons (by decide) List.Forall₂.nil)⟩

/-- C6: a window whose length differs from 6 (in particular a short final
window, compared using only its available bytes) never matches the
6-byte filler pattern; and for an input of one filler window followed by
k < 6 trailing 0xFF bytes the segmenter emits exactly the short all-0xFF
tail as a block. -/
theorem C6_short_window_non_filler :
    (∀ w : List Nat, w.length ≠ 6 → isFillerWindow w = false)
    ∧ (∀ k : Nat, 0 < k → k < 6 →
        segment (List.replicate 6 255 ++ List.replicate k 255) =
          [List.replicate k 255]) := by
  constructor
  · intro w hw
    cases hb : isFillerWindow w with
    | false => rfl
    | true =>
      have := congrArg List.length (isFillerWindow_iff.mp hb)
      simp at this
      exact absurd this hw
  · intro k h1 h2
    interval_cases k <;> decide

theorem C6_short_window_witness :
    isFillerWindow [255, 255, 255] = false
    ∧ segment (List.replicate 6 255 ++ List.replicate 3 255) =
        [List.replicate 3 255] :=
  ⟨C6_short_window_non_filler.1 [255, 255, 255] (by decide),
   C6_short_window_non_filler.2 3 (by decide) (by decide)⟩


/-- C7 counterexample: on the 4-byte block C2 00 12 34 a full 4-byte
record with a matching marker fits at offset 0, yet the scan (whose
guard is the strict `i < len(data) - 4`) examines no offset and emits no
sample. -/
theorem C7_counterexample :
    parse_logs_samples [0xC2, 0x00, 0x12, 0x34] = []
    ∧ isSampleMarker 0xC2 0x00 = true
    ∧ ([0xC2, 0x00, 0x12, 0x34] : List Nat).length = 4 :=
  ⟨rfl, by decide, by decide⟩

/-- C7 amended: the scan examines offsets only while MORE than 4 bytes
remain (`i < len(data) - 4`), so the final offset at which a 4-byte
record exactly fits is never examined (with at most 4 bytes left the
scan emits nothing); at an examined offset a marker match emits the
sample and advances the scan by 4, and a non-match advances it by 1. -/
theorem C7_amended_scan_guard :
    (∀ (i : Nat) (data : List Nat), data.length ≤ 4 → sampleScan i data = [])
    ∧ (∀ (i a b c d e : Nat) (rest : List Nat), isSampleMarker a b = true →
        sampleScan i (a :: b :: c :: d :: e :: rest) =
          ⟨i, bytesHexLower [a, b], c + 256 * d, ((c + 256 * d : Nat) : ℚ) / 100⟩ ::
            sampleScan (i + 4) (e :: rest))
    ∧ (∀ (i a b c d e : Nat) (rest : List Nat), isSampleMarker a b = false →
        sampleScan i (a :: b :: c :: d :: e :: rest) =
          sampleScan (i + 1) (b :: c :: d :: e :: rest)) := by
  refine ⟨?_, ?_, ?_⟩
  · intro i data h
    rcases data with _ | ⟨a, _ | ⟨b, _ | ⟨c, _ | ⟨d, _ | ⟨e, rest⟩⟩⟩⟩⟩
    · rfl
    · rfl
    · rfl
    · rfl
    · rfl
    · simp at h
  · intro i a b c d e rest h
    simp [sampleScan, h]
  · intro i a b c d e rest h
    simp [sampleScan, h]

theorem C7_amended_witness :
    sampleScan 0 [1, 2, 3] = []
    ∧ sampleScan 0 [0xC3, 0x00, 7, 0, 9] =
        ⟨0, bytesHexLower [0xC3, 0x00], 7 + 256 * 0, ((7 + 256 * 0 : Nat) : ℚ) / 100⟩ ::
          sampleScan 4 [9]
    ∧ sampleScan 0 [9, 9, 9, 9, 9, 9] = sampleScan 1 [9, 9, 9, 9, 9] :=
  ⟨C7_amended_scan_guard.1 0 [1, 2, 3] (by decide),
   C7_amended_scan_guard.2.1 0 0xC3 0x00 7 0 9 [] (by decide),
   C7_amended_scan_guard.2.2 0 9 9 9 9 9 [] (by decide)⟩

/-- C8: channel materialization fails (the pipeline's block output is
`none`, with no partial byte sequence and no segmentation) exactly when
the body channel's accumulated hex text has odd length or contains a
non-hex character, and the reported header channel text is unaffected by
the failure. -/
theorem C8_decode_error (lines : List (List Char)) :
    ((parse_dump lines).2 = none ↔
      ((demux lines).2.length % 2 = 1 ∨ ∃ c ∈ (demux lines).2, hexVal c = none))
    ∧ (parse_dump lines).1 = (demux lines).1 := by
  have hiff := unhexlify_eq_none_iff (demux lines).2
  rcases h : unhexlify (demux lines).2 with _ | bs
  · rw [h] at hiff
    constructor
    · rw [show parse_dump lines = ((demux lines).1, none) from by
        rw [parse_dump, h]]
      simpa using hiff.mp rfl
    · rw [show parse_dump lines = ((demux lines).1, none) from by
        rw [parse_dump, h]]
  · rw [h] at hiff
    constructor
    · rw [show parse_dump lines = ((demux lines).1, some (segment bs)) from by
        rw [parse_dump, h]]
      simpa using hiff
    · rw [show parse_dump lines = ((demux lines).1, some (segment bs)) from by
        rw [parse_dump, h]]


/-- C9 counterexample: the 8-character line 4200AABB is NOT treated as a
valid frame: the demultiplexer drops it (both channels stay empty), so
no payload BB reaches the header channel. -/
theorem C9_counterexample :
    demux ["4200AABB".toList] = ([], [])
    ∧ ("4200AABB".toList).length = 8
    ∧ demux ["4200AABB".toList] ≠ ("BB".toList, []) := by decide

/-- C9 amended: the minimum-length check (≥ 10 on the stripped line)
drops the 8-character line 4200AABB just like any 9-character line; the
boundary is at exactly 10 characters, but a 10-character accepted line
contributes the 4-character payload `line[6:10]`, not an empty payload
(an empty payload would need a 6-character line, which the check
rejects). -/
theorem C9_amended_min_length_boundary (hdr body : List Char)
    (rest : List (List Char)) (line : List Char) :
    ((pyStrip line).length < 10 →
      demuxGo hdr body (line :: rest) = demuxGo hdr body rest)
    ∧ (10 ≤ (pyStrip line).length → (pyStrip line).take 2 = "42".toList →
      demuxGo hdr body (line :: rest) =
        demuxGo (hdr ++ (pyStrip line).drop 6) body rest)
    ∧ ((pyStrip line).length = 10 → ((pyStrip line).drop 6).length = 4) := by
  refine ⟨?_, ?_, ?_⟩
  · intro h
    simp [demuxGo, h]
  · intro h1 h2
    have h1' : ¬((pyStrip line).length < 10) := by omega
    simp [demuxGo, h1', h2]
  · intro h
    simp [h]

theorem C9_amended_witness :
    demuxGo [] [] ["420000000".toList] = demuxGo [] [] []
    ∧ demuxGo [] [] ["4200AA1234".toList] =
        demuxGo ([] ++ (pyStrip "4200AA1234".toList).drop 6) [] []
    ∧ ((pyStrip "4200AA1234".toList).drop 6).length = 4 :=
  ⟨(C9_amended_min_length_boundary [] [] [] "420000000".toList).1 (by decide),
   (C9_amended_min_length_boundary [] [] [] "4200AA1234".toList).2.1
     (by decide) (by decide),
   (C9_amended_min_length_boundary [] [] [] "4200AA1234".toList).2.2 (by decide)⟩

/-- C10: the demultiplexer's output is independent of the checksum and
length fields: two captures whose lines pairwise agree on stripped
length, command-code characters [0,2) and payload characters [6..)
produce identical header and body accumulators. -/
theorem C10_checksum_length_independence (L1 L2 : List (List Char))
    (h : List.Forall₂ linesAgree L1 L2) : demux L1 = demux L2 :=
  demuxGo_congr h [] []

theorem C10_checksum_length_independence_witness :
    demux ["4212AACAFE".toList] = demux ["4299BBCAFE".toList] :=
  C10_checksum_length_independence _ _
    (List.Forall₂.cons ⟨by decide, by decide, by decide⟩ List.Forall₂.nil)


theorem C8_decode_error_witness :
    (parse_dump ["44AAAA12345".toList]).2 = none :=
  (C8_decode_error ["44AAAA12345".toList]).1.mpr (Or.inl (by decide))

end Cosmiq
